import Mathlib

/-!
# BSON type handler: field-size calculator and top-level projection

A shallow embedding of `bson_field_size` and `bson_project` from
`src/ext/type_handlers/bson/bson_handler.c`.

Modelling conventions.

* A byte is a `Fin 256` (`unsigned char`).
* A pointer into a buffer is modelled by the bytes from that address up to the
  end of the buffer, so `p[i]` is `p[i]?` and `p + n` is `p.drop n`.  A read
  outside the buffer is undefined behaviour in C; here it yields `none`.
* `size_t` is 64 bits wide: every `size_t` addition is taken modulo `2 ^ 64`.
* `int` is 32 bits wide, two's complement: `b << k` on a promoted byte wraps
  into the `int` range and is sign-extended when it is added to a `size_t`.
* The scan loop of `bson_project` need not terminate, so it carries a fuel
  argument: one unit of fuel per executed loop body.
* Diagnostic output (`printf`, `msg_printf`) is not modelled.
-/

namespace Bson

/-- An `unsigned char`. -/
abbrev Byte := Fin 256

/-- Addition of two `size_t` values (64-bit, wrapping). -/
def size_add (a b : Nat) : Nat := (a + b) % 2 ^ 64

/-- The `size_t` that `acc += b << k` adds: the byte `b` is promoted to a 32-bit
`int`, shifted (wrapping into the two's complement range), and the `int` is
converted to `size_t`, which sign-extends a negative value to 64 bits. -/
def shl_int_to_size (b : Byte) (k : Nat) : Nat :=
  let v := (b.val * 2 ^ k) % 2 ^ 32
  if v < 2 ^ 31 then v else v + (2 ^ 64 - 2 ^ 32)

/-- The libc `strlen`: number of bytes before the first zero byte; `none` when
the scan leaves the buffer before a zero byte is found. -/
def strlen : List Byte → Option Nat
  | [] => none
  | c :: s => if c = 0 then some 0 else (strlen s).map (· + 1)

/-- The libc `strcmp` on two buffers: the difference of the first pair of
bytes that differ, `0` when both strings end together; `none` when the
comparison leaves either buffer. -/
def strcmp : List Byte → List Byte → Option Int
  | a :: s1, b :: s2 =>
    if a ≠ b then some ((a.val : Int) - (b.val : Int))
    else if a = 0 then some 0
    else strcmp s1 s2
  | _, _ => none

/-- The table `static size_t typeSizes[32]`: twenty initialisers, the remaining
twelve entries are zero-initialised. -/
def typeSizes : List Nat :=
  [0, 8, 0, 0, 0, 0, 0, 12, 1, 8, 0, 0, 0, 0, 0, 0, 4, 8, 8, 16,
   0, 0, 0, 0, 0, 0, 0, 0, 0, 0, 0, 0]

/-- The four statements `acc += data[0]; acc += data[1] << 8;
acc += data[2] << 16; acc += data[3] << 24;` on a `size_t` accumulator. -/
def add_le32 (acc : Nat) (data : List Byte) : Option Nat :=
  match data with
  | b0 :: b1 :: b2 :: b3 :: _ =>
    some (size_add (size_add (size_add (size_add acc b0.val) (shl_int_to_size b1 8))
      (shl_int_to_size b2 16)) (shl_int_to_size b3 24))
  | _ => none

/-- The function `bson_field_size(bytes)`; `none` when it reads outside the
buffer or outside `typeSizes`. -/
def bson_field_size (bytes : List Byte) : Option Nat :=
  match bytes[0]? with
  | none => none
  | some type =>
    let data := bytes.drop 1
    match strlen data with
    | none => none
    | some n =>
      let field_name_size := size_add 1 n
      let data := data.drop field_name_size
      match typeSizes[type.val]? with
      | none => none
      | some w =>
        if w > 0 then some (size_add w field_name_size)
        else if type.val = 3 ∨ type.val = 4 then
          (add_le32 0 data).map (fun field_data_size => size_add field_data_size field_data_size)
        else if type.val = 5 then
          (add_le32 5 data).map (fun field_data_size => size_add field_data_size field_name_size)
        else if type.val = 2 ∨ type.val = 13 then
          (add_le32 4 data).map (fun field_data_size => size_add field_data_size field_name_size)
        else if type.val = 11 then
          match strlen data with
          | none => none
          | some n1 =>
            let field_data_size := size_add n1 1
            match strlen (data.drop field_data_size) with
            | none => none
            | some n2 =>
              let field_data_size := size_add field_data_size (size_add n2 1)
              some (size_add field_data_size field_name_size)
        else some 0

/-- Modelled from the spec: the declaration of `WT_ITEM` (wiredtiger.h) is not
among the sources; the spec describes it as a byte-range descriptor, a pointer
and a length (`data`, `size`).  The pointer is kept as an offset from the start
of the document buffer.  The fields `mem`, `memsize` and `flags` stand for the
rest of the item, which `bson_project` never assigns. -/
structure WT_ITEM where
  data : Nat
  size : Nat
  mem : Nat
  memsize : Nat
  flags : Nat
deriving DecidableEq, Repr

/-- What one execution of the loop body of `bson_project` does: return from the
function, or go round the loop with a new offset. -/
inductive LoopStep where
  | ret (status : Int) (result : WT_ITEM)
  | next (offset : Nat)
deriving DecidableEq, Repr

/-- How a call of `bson_project` ends: it returns a status and the caller's
result item, it reads outside a buffer (`fault`), or it is still looping when
the fuel is used up (`timeout`). -/
inductive Outcome where
  | ret (status : Int) (result : WT_ITEM)
  | fault
  | timeout
deriving DecidableEq, Repr

/-- The body of the `for` loop of `bson_project` at scan offset `offset`. -/
def bson_project_body (data proj : List Byte) (result : WT_ITEM) (offset : Nat) :
    Option LoopStep :=
  match data[offset]? with
  | none => none
  | some typetag =>
    if typetag = 0 then some (.ret 1 result)
    else
      match bson_field_size (data.drop offset) with
      | none => none
      | some field_size =>
        match strcmp proj (data.drop (offset + 1)) with
        | none => none
        | some c =>
          if c = 0 then
            some (.ret 0 { result with data := offset, size := size_add 1 field_size })
          else some (.next (size_add offset (size_add 1 field_size)))

/-- The loop `for (offset = 4; offset < len;)` of `bson_project`, started at
`offset`, followed by the final `return (1)`. -/
def bson_project_loop (data proj : List Byte) (result : WT_ITEM) (len : Nat) :
    Nat → Nat → Outcome
  | 0, offset => if offset < len then .timeout else .ret 1 result
  | fuel + 1, offset =>
    if offset < len then
      match bson_project_body data proj result offset with
      | none => .fault
      | some (.ret status r) => .ret status r
      | some (.next o) => bson_project_loop data proj result len fuel o
    else .ret 1 result

/-- The function `bson_project(type_handle, session, proj, value, result)`:
`proj` is the buffer of the C string, `value` the buffer `value->data`. -/
def bson_project (fuel : Nat) (proj value : List Byte) (result : WT_ITEM) : Outcome :=
  match add_le32 0 value with
  | none => .fault
  | some len => bson_project_loop value proj result len fuel 4

/-- The offset the scan moves to from `offset`: `offset + (1 + bson_field_size(data + offset))`. -/
def scan_advance (data : List Byte) (offset : Nat) : Option Nat :=
  (bson_field_size (data.drop offset)).map (fun field_size => size_add offset (size_add 1 field_size))

/-! ## The encoded format, as the specification describes it -/

/-- The byte `n mod 256`. -/
def byte_of (n : Nat) : Byte := ⟨n % 256, Nat.mod_lt n (by decide)⟩

/-- Four-byte little-endian encoding of a length. -/
def le32 (n : Nat) : List Byte :=
  [byte_of n, byte_of (n / 2 ^ 8), byte_of (n / 2 ^ 16), byte_of (n / 2 ^ 24)]

/-- An encoded field: type tag, name (without its terminator), value bytes. -/
structure Field where
  tag : Byte
  name : List Byte
  value : List Byte
deriving DecidableEq, Repr

/-- The bytes of a field: tag, name, null terminator, value. -/
def Field.encode (f : Field) : List Byte := f.tag :: (f.name ++ 0 :: f.value)

/-- The bytes of a sequence of fields. -/
def encodeFields : List Field → List Byte
  | [] => []
  | f :: fs => f.encode ++ encodeFields fs

/-- An encoded document: total length, fields, terminator. -/
def encodeDoc (fs : List Field) : List Byte :=
  le32 (4 + (encodeFields fs).length + 1) ++ (encodeFields fs ++ [0])

/-- A byte string without zero bytes. -/
def NoZero (s : List Byte) : Prop := ∀ b ∈ s, b ≠ 0

/-- The fixed widths of the specification: tag to byte width. -/
def fixedWidth : Nat → Option Nat
  | 1 => some 8
  | 7 => some 12
  | 8 => some 1
  | 9 => some 8
  | 16 => some 4
  | 17 => some 8
  | 18 => some 8
  | 19 => some 16
  | _ => none

/-- The value encodings of the tags other than 3 and 4 that have a size rule. -/
inductive ValueOK : Byte → List Byte → Prop where
  | fixed (t : Byte) (w : Nat) (v : List Byte) :
      fixedWidth t.val = some w → v.length = w → ValueOK t v
  | string (t : Byte) (payload : List Byte) :
      t.val = 2 ∨ t.val = 13 → ValueOK t (le32 payload.length ++ payload)
  | binary (subtype : Byte) (payload : List Byte) :
      ValueOK 5 (le32 payload.length ++ subtype :: payload)
  | regex (s1 s2 : List Byte) :
      NoZero s1 → NoZero s2 → ValueOK 11 (s1 ++ 0 :: (s2 ++ [0]))

/-- A field with a zero-free name and a value encoded as its tag prescribes. -/
def FieldOK (f : Field) : Prop := NoZero f.name ∧ ValueOK f.tag f.value

/-- The projection as the specification describes it, on the list of fields of a
document: the first field named `F` with its offset and encoded length, and
status 1 with the result item untouched when no field has that name. -/
def project_spec (F : List Byte) (result : WT_ITEM) : List Field → Nat → Outcome
  | [], _ => .ret 1 result
  | f :: fs, offset =>
    if f.name = F then .ret 0 { result with data := offset, size := f.encode.length }
    else project_spec F result fs (offset + f.encode.length)

/-! ## Concrete fields and documents -/

/-- The 32-bit integer field "x" with value 42. -/
def field_x : Field := ⟨16, [120], [42, 0, 0, 0]⟩

/-- The document of the specification's scenario: the single field "x". -/
def doc_x : List Byte := [12, 0, 0, 0, 16, 120, 0, 42, 0, 0, 0, 0]

/-- An embedded-document field "a" whose value is the empty document. -/
def field_a_empty : Field := ⟨3, [97], [5, 0, 0, 0, 0]⟩

/-- The 32-bit integer field "x" with value 0. -/
def field_x_zero : Field := ⟨16, [120], [0, 0, 0, 0]⟩

/-- The document with the fields "a" (empty embedded document) and "x" (0). -/
def doc_embedded : List Byte :=
  [20, 0, 0, 0, 3, 97, 0, 5, 0, 0, 0, 0, 16, 120, 0, 0, 0, 0, 0, 0]

/-- An embedded-document field "a" whose value is a document with one boolean field "t". -/
def field_a_bool : Field := ⟨3, [97], [9, 0, 0, 0, 8, 116, 0, 1, 0]⟩

/-- A string field "b" whose three payload bytes are 16, "z" and the terminator. -/
def field_b_string : Field := ⟨2, [98], [3, 0, 0, 0, 16, 122, 0]⟩

/-- The document with the fields "a" (embedded document) and "b" (string). -/
def doc_embedded_string : List Byte :=
  [27, 0, 0, 0, 3, 97, 0, 9, 0, 0, 0, 8, 116, 0, 1, 0, 2, 98, 0, 3, 0, 0, 0, 16, 122, 0, 0]

/-- A string field "b" whose three payload bytes are 2, "z" and the terminator. -/
def field_b_string2 : Field := ⟨2, [98], [3, 0, 0, 0, 2, 122, 0]⟩

/-- The document with the fields "a" (embedded document) and "b" (second string). -/
def doc_embedded_string2 : List Byte :=
  [27, 0, 0, 0, 3, 97, 0, 9, 0, 0, 0, 8, 116, 0, 1, 0, 2, 98, 0, 3, 0, 0, 0, 2, 122, 0, 0]

/-! ## The lengths and the offsets of a scan -/

/-- The four bytes that `bson_field_size(bytes)` reads as a length: the bytes
`data[0..3]` after the name, in the cases 3, 4, 5, 2 and 13 of the `switch`. -/
def length_field (bytes : List Byte) : Option (List Byte) :=
  match bytes[0]? with
  | none => none
  | some type =>
    match strlen (bytes.drop 1) with
    | none => none
    | some n =>
      if type.val = 3 ∨ type.val = 4 ∨ type.val = 5 ∨ type.val = 2 ∨ type.val = 13 then
        some (((bytes.drop 1).drop (size_add 1 n)).take 4)
      else none

/-- The top byte of a four-byte length, when it is there, is below `0x80`. -/
def TopByteOK (d : List Byte) : Prop := ∀ b, d[3]? = some b → b.val < 128

/-- The offsets at which the loop of `bson_project` executes its body: offset 4,
and every offset the body moves to from a visited offset below `len`. -/
inductive Visits (data proj : List Byte) (result : WT_ITEM) (len : Nat) : Nat → Prop where
  | start : Visits data proj result len 4
  | step (o o2 : Nat) : Visits data proj result len o → o < len →
      bson_project_body data proj result o = some (.next o2) →
      Visits data proj result len o2

/-- The unsigned 32-bit little-endian value of four bytes. -/
def le32_value (b0 b1 b2 b3 : Byte) : Nat :=
  b0.val + 2 ^ 8 * b1.val + 2 ^ 16 * b2.val + 2 ^ 24 * b3.val

/-- The document without fields: declared length 5, terminator at offset 4. -/
def doc_empty : List Byte := [5, 0, 0, 0, 0]

/-- A document with one field of tag 10 (no size rule) named "n". -/
def doc_null_n : List Byte := [8, 0, 0, 0, 10, 110, 0, 0]

/-- A document with one field of tag 10 (no size rule) with the empty name. -/
def doc_null_empty : List Byte := [7, 0, 0, 0, 10, 0, 0]

/-- A buffer whose length bytes are 16, "x", 0, 0 and whose field at offset 4 has
tag 2, the empty name and the length bytes f6 ff ff ff. -/
def doc_wrap : List Byte := [16, 120, 0, 0, 2, 0, 246, 255, 255, 255]

/-- A document with one field of tag 127 named "k". -/
def doc_maxkey : List Byte := [8, 0, 0, 0, 127, 107, 0, 0]

/-- A buffer of declared length 5 whose byte at offset 4 is the tag 1: the name
of the field is not inside the buffer. -/
def doc_short : List Byte := [5, 0, 0, 0, 1]

/-- A document with the single string field "s" holding "hello". -/
def doc_s : List Byte :=
  [18, 0, 0, 0, 2, 115, 0, 6, 0, 0, 0, 104, 101, 108, 108, 111, 0, 0]

/-! ## The memory of a call -/

/-- The memory a call of `bson_project` works on: the bytes of the document
behind `value->data` and the caller's item `*result`. -/
structure Memory where
  document : List Byte
  result : WT_ITEM
deriving DecidableEq, Repr

/-- The call of `bson_project` as a transformer of that memory, with the status
it returns.  The only stores of the function are the assignments to
`result->data` and `result->size` before `return (0)`; `data` is only read
through, so the document is handed on as it is.  `none` when the call reads
outside a buffer or is still looping when the fuel is used up. -/
def bson_project_mem (fuel : Nat) (proj : List Byte) (m : Memory) : Option (Int × Memory) :=
  match bson_project fuel proj m.document m.result with
  | .ret status result => some (status, { m with result := result })
  | .fault => none
  | .timeout => none

/-- The document with the field "x" and an item whose five fields are set. -/
def mem_x : Memory := ⟨doc_x, ⟨9, 9, 77, 88, 99⟩⟩

/-- The memory after the field "x" has been found in `mem_x`. -/
def mem_x_found : Memory := ⟨doc_x, ⟨4, 7, 77, 88, 99⟩⟩

end Bson

namespace Bson

/-! ## Strings -/

theorem strlen_append (s rest : List Byte) (hs : NoZero s) :
    strlen (s ++ 0 :: rest) = some s.length := by
  induction s with
  | nil => simp [strlen]
  | cons c s ih =>
    have hc : c ≠ 0 := hs c (by simp)
    have hs2 : NoZero s := fun b hb => hs b (by simp [hb])
    simp [strlen, hc, ih hs2]

theorem strcmp_terminated (p s rest : List Byte) (hp : NoZero p) (hs : NoZero s) :
    ∃ c, strcmp (p ++ [0]) (s ++ 0 :: rest) = some c ∧ (c = 0 ↔ p = s) := by
  induction p generalizing s with
  | nil =>
    cases s with
    | nil => exact ⟨0, by simp [strcmp], by simp⟩
    | cons b s =>
      have hb : b ≠ 0 := hs b (by simp)
      refine ⟨((0 : Byte).val : Int) - (b.val : Int), ?_, ?_⟩
      · simp [strcmp, Ne.symm hb]
      · have : b.val ≠ 0 := fun h => hb (Fin.ext h)
        simp
        omega
  | cons a p ih =>
    have ha : a ≠ 0 := hp a (by simp)
    have hp2 : NoZero p := fun b hb => hp b (by simp [hb])
    cases s with
    | nil =>
      refine ⟨(a.val : Int) - ((0 : Byte).val : Int), ?_, ?_⟩
      · simp [strcmp, ha]
      · have : a.val ≠ 0 := fun h => ha (Fin.ext h)
        simp
        omega
    | cons b s =>
      have hs2 : NoZero s := fun c hc => hs c (by simp [hc])
      by_cases hab : a = b
      · subst hab
        obtain ⟨c, hc, hiff⟩ := ih s hp2 hs2
        exact ⟨c, by simp [strcmp, ha, hc], by simp [hiff]⟩
      · refine ⟨(a.val : Int) - (b.val : Int), by simp [strcmp, hab], ?_⟩
        have : a.val ≠ b.val := fun h => hab (Fin.ext h)
        simp [hab]
        omega

/-! ## Little-endian lengths -/

theorem add_le32_le32 (acc L : Nat) (rest : List Byte) (hL : L < 2 ^ 31)
    (hacc : acc + L < 2 ^ 64) : add_le32 acc (le32 L ++ rest) = some (acc + L) := by
  simp only [le32, add_le32, List.cons_append, List.nil_append, Option.some.injEq]
  simp only [size_add, shl_int_to_size, byte_of]
  split_ifs <;> omega

/-! ## The field-size calculator on an encoded field -/

theorem typeSizes_fixedWidth :
    ∀ u, u < 32 → typeSizes[u]? = some ((fixedWidth u).getD 0) := by
  decide

theorem fixedWidth_table (t w : Nat) (h : fixedWidth t = some w) :
    typeSizes[t]? = some w ∧ 0 < w ∧ w ≤ 16 ∧ t ≠ 0 := by
  unfold fixedWidth at h
  split at h <;> cases h <;> decide

/-- Reading the tag and the name: what `bson_field_size` does up to the table
lookup, on a field whose name is terminated inside the buffer. -/
theorem bson_field_size_name (t : Byte) (name rest : List Byte) (hn : NoZero name)
    (hsz : name.length + 1 < 2 ^ 64) :
    bson_field_size (t :: (name ++ 0 :: rest)) =
      match typeSizes[t.val]? with
      | none => none
      | some w =>
        if w > 0 then some (size_add w (name.length + 1))
        else if t.val = 3 ∨ t.val = 4 then
          (add_le32 0 rest).map (fun d => size_add d d)
        else if t.val = 5 then
          (add_le32 5 rest).map (fun d => size_add d (name.length + 1))
        else if t.val = 2 ∨ t.val = 13 then
          (add_le32 4 rest).map (fun d => size_add d (name.length + 1))
        else if t.val = 11 then
          match strlen rest with
          | none => none
          | some n1 =>
            match strlen (rest.drop (size_add n1 1)) with
            | none => none
            | some n2 =>
              some (size_add (size_add (size_add n1 1) (size_add n2 1)) (name.length + 1))
        else some 0 := by
  have h1 : size_add 1 name.length = name.length + 1 := by
    unfold size_add; omega
  have h2 : List.drop (name.length + 1) (name ++ 0 :: rest) = rest := by
    have h3 : name ++ 0 :: rest = (name ++ [0]) ++ rest := by simp
    rw [h3, List.drop_left' (by simp)]
  simp only [bson_field_size, List.getElem?_cons_zero, List.drop_succ_cons, List.drop_zero,
    strlen_append name rest hn, h1, h2]

theorem bson_field_size_fixed (t : Byte) (name rest : List Byte) (w : Nat)
    (hw : fixedWidth t.val = some w) (hn : NoZero name)
    (hsz : w + (name.length + 1) < 2 ^ 64) :
    bson_field_size (t :: (name ++ 0 :: rest)) = some (w + (name.length + 1)) := by
  obtain ⟨h1, h2, h3, _⟩ := fixedWidth_table t.val w hw
  have h4 : size_add w (name.length + 1) = w + (name.length + 1) := by
    unfold size_add; omega
  rw [bson_field_size_name t name rest hn (by omega), h1]
  simp [h2, h4]

theorem bson_field_size_string (t : Byte) (name rest : List Byte) (L : Nat)
    (ht : t.val = 2 ∨ t.val = 13) (hn : NoZero name) (hL : L < 2 ^ 31)
    (hsz : (4 + L) + (name.length + 1) < 2 ^ 64) :
    bson_field_size (t :: (name ++ 0 :: (le32 L ++ rest))) =
      some ((4 + L) + (name.length + 1)) := by
  have h4 : size_add (4 + L) (name.length + 1) = (4 + L) + (name.length + 1) := by
    unfold size_add; omega
  rw [bson_field_size_name t _ _ hn (by omega), add_le32_le32 4 L rest hL (by omega)]
  rcases ht with ht | ht <;> simp [ht, typeSizes, h4]

theorem bson_field_size_binary (t : Byte) (name rest : List Byte) (L : Nat)
    (ht : t.val = 5) (hn : NoZero name) (hL : L < 2 ^ 31)
    (hsz : (5 + L) + (name.length + 1) < 2 ^ 64) :
    bson_field_size (t :: (name ++ 0 :: (le32 L ++ rest))) =
      some ((5 + L) + (name.length + 1)) := by
  have h4 : size_add (5 + L) (name.length + 1) = (5 + L) + (name.length + 1) := by
    unfold size_add; omega
  rw [bson_field_size_name t _ _ hn (by omega), add_le32_le32 5 L rest hL (by omega)]
  simp [ht, typeSizes, h4]

theorem bson_field_size_regex (t : Byte) (name s1 s2 rest : List Byte)
    (ht : t.val = 11) (hn : NoZero name) (h1 : NoZero s1) (h2 : NoZero s2)
    (hsz : ((s1.length + 1) + (s2.length + 1)) + (name.length + 1) < 2 ^ 64) :
    bson_field_size (t :: (name ++ 0 :: (s1 ++ 0 :: (s2 ++ 0 :: rest)))) =
      some (((s1.length + 1) + (s2.length + 1)) + (name.length + 1)) := by
  have e1 : size_add s1.length 1 = s1.length + 1 := by unfold size_add; omega
  have e2 : size_add s2.length 1 = s2.length + 1 := by unfold size_add; omega
  have e3 : size_add (s1.length + 1) (s2.length + 1) = (s1.length + 1) + (s2.length + 1) := by
    unfold size_add; omega
  have e4 : size_add ((s1.length + 1) + (s2.length + 1)) (name.length + 1) =
      ((s1.length + 1) + (s2.length + 1)) + (name.length + 1) := by
    unfold size_add; omega
  have hd : List.drop (s1.length + 1) (s1 ++ 0 :: (s2 ++ 0 :: rest)) = s2 ++ 0 :: rest := by
    have h3 : s1 ++ 0 :: (s2 ++ 0 :: rest) = (s1 ++ [0]) ++ (s2 ++ 0 :: rest) := by simp
    rw [h3, List.drop_left' (by simp)]
  rw [bson_field_size_name t _ _ hn (by omega)]
  simp [ht, typeSizes, strlen_append, h1, h2, e1, e2, e3, e4, hd]

theorem bson_field_size_embedded (t : Byte) (name rest : List Byte) (L : Nat)
    (ht : t.val = 3 ∨ t.val = 4) (hn : NoZero name) (hL : L < 2 ^ 31)
    (hsz : name.length + 1 < 2 ^ 64) :
    bson_field_size (t :: (name ++ 0 :: (le32 L ++ rest))) = some (L + L) := by
  have h4 : size_add (0 + L) (0 + L) = L + L := by
    unfold size_add; omega
  rw [bson_field_size_name t _ _ hn hsz, add_le32_le32 0 L rest hL (by omega)]
  rcases ht with ht | ht <;> simp [ht, typeSizes] <;> simpa using h4

theorem ValueOK_tag_ne_zero (t : Byte) (v : List Byte) (h : ValueOK t v) : t ≠ 0 := by
  intro h0
  subst h0
  cases h with
  | fixed _ w _ hw _ => exact (fixedWidth_table _ w hw).2.2.2 rfl
  | string _ p ht => rcases ht with ht | ht <;> simp at ht

/-- On a field encoded as its tag prescribes, `bson_field_size` returns the
number of bytes of the terminated name and the value: the field without its tag. -/
theorem bson_field_size_FieldOK (f : Field) (rest : List Byte) (hf : FieldOK f)
    (hname : f.name.length < 2 ^ 63) (hvalue : f.value.length < 2 ^ 31) :
    bson_field_size (f.encode ++ rest) = some ((f.name.length + 1) + f.value.length) := by
  obtain ⟨t, name, value⟩ := f
  obtain ⟨hn, hv⟩ := hf
  simp only [Field.encode, List.cons_append, List.append_assoc] at *
  cases hv with
  | fixed _ w _ hw hlen =>
    rw [bson_field_size_fixed t name _ w hw hn (by omega)]
    simp; omega
  | string _ payload ht =>
    simp only [List.length_append, le32, List.length_cons, List.length_nil] at hvalue
    have := bson_field_size_string t name (payload ++ rest) payload.length ht hn (by omega)
      (by omega)
    simp only [List.append_assoc] at this ⊢
    rw [this]
    simp [le32]; omega
  | binary subtype payload =>
    simp only [List.length_append, le32, List.length_cons, List.length_nil] at hvalue
    have := bson_field_size_binary 5 name (subtype :: payload ++ rest) payload.length rfl hn
      (by omega) (by omega)
    simp only [List.append_assoc, List.cons_append] at this ⊢
    rw [this]
    simp [le32]; omega
  | regex s1 s2 h1 h2 =>
    simp only [List.length_append, List.length_cons, List.length_nil] at hvalue
    have := bson_field_size_regex 11 name s1 s2 rest rfl hn h1 h2 (by omega)
    simp only [List.append_assoc, List.cons_append, List.nil_append] at this ⊢
    rw [this]
    simp; omega

/-! ## The scan of `bson_project` over the fields of a document -/

theorem Field.encode_length (f : Field) :
    f.encode.length = 1 + ((f.name.length + 1) + f.value.length) := by
  simp [Field.encode]; omega

theorem bson_project_loop_fields (D F : List Byte) (r : WT_ITEM) (len : Nat)
    (hF : NoZero F) (hlt : len < 2 ^ 31) (post : List Field) :
    ∀ (off fuel : Nat), (∀ f ∈ post, FieldOK f) →
      D.drop off = encodeFields post ++ [0] →
      off + (encodeFields post).length + 1 = len → post.length < fuel →
      bson_project_loop D (F ++ [0]) r len fuel off = project_spec F r post off := by
  induction post with
  | nil =>
    intro off fuel _ hdrop hlen hfuel
    obtain ⟨k, rfl⟩ : ∃ k, fuel = k + 1 := ⟨fuel - 1, by simp at hfuel; omega⟩
    have h0 : D[off]? = some 0 := by
      have := List.getElem?_drop (L := D) (i := off) (j := 0)
      rw [hdrop] at this
      simpa [encodeFields] using this.symm
    simp only [encodeFields, List.length_nil] at hlen
    have hoff : off < len := by omega
    simp [bson_project_loop, bson_project_body, h0, project_spec, hoff]
  | cons f fs ih =>
    intro off fuel hok hdrop hlen hfuel
    obtain ⟨k, rfl⟩ : ∃ k, fuel = k + 1 := ⟨fuel - 1, by simp at hfuel; omega⟩
    have hf : FieldOK f := hok f (by simp)
    have hfs : ∀ g ∈ fs, FieldOK g := fun g hg => hok g (by simp [hg])
    simp only [encodeFields, List.length_append, List.append_assoc] at hdrop hlen
    have hel := Field.encode_length f
    have h0 : D[off]? = some f.tag := by
      have := List.getElem?_drop (L := D) (i := off) (j := 0)
      rw [hdrop] at this
      simpa [Field.encode] using this.symm
    have htag : f.tag ≠ 0 := ValueOK_tag_ne_zero _ _ hf.2
    have hsize := bson_field_size_FieldOK f (encodeFields fs ++ [0]) hf (by omega) (by omega)
    rw [← hdrop] at hsize
    have hdrop1 : D.drop (off + 1) = f.name ++ 0 :: (f.value ++ (encodeFields fs ++ [0])) := by
      have : D.drop (off + 1) = (D.drop off).drop 1 := by
        rw [List.drop_drop]
      rw [this, hdrop]
      simp [Field.encode]
    obtain ⟨c, hc, hiff⟩ := strcmp_terminated F f.name (f.value ++ (encodeFields fs ++ [0]))
      hF hf.1
    rw [← hdrop1] at hc
    have e1 : size_add 1 ((f.name.length + 1) + f.value.length) = f.encode.length := by
      unfold size_add; omega
    have e2 : size_add off f.encode.length = off + f.encode.length := by
      unfold size_add; omega
    have hoff : off < len := by omega
    by_cases hname : f.name = F
    · have hc0 : c = 0 := hiff.2 hname.symm
      subst hc0
      subst hname
      simp [bson_project_loop, bson_project_body, h0, htag, hsize, hc, hoff, project_spec, e1]
    · have hc0 : c ≠ 0 := fun h => hname (hiff.1 h).symm
      have hdrop2 : D.drop (off + f.encode.length) = encodeFields fs ++ [0] := by
        have : D.drop (off + f.encode.length) = (D.drop off).drop f.encode.length := by
          rw [List.drop_drop]
        rw [this, hdrop, List.drop_left]
      have hrec := ih (off + f.encode.length) k hfs hdrop2 (by omega)
        (by simp at hfuel; omega)
      simp [bson_project_loop, bson_project_body, h0, htag, hsize, hc, hoff, project_spec,
        hname, hc0, e1, e2, hrec]

theorem le32_length (n : Nat) : (le32 n).length = 4 := rfl

theorem encodeDoc_length (fs : List Field) :
    (encodeDoc fs).length = 4 + (encodeFields fs).length + 1 := by
  simp [encodeDoc, le32_length]; omega

/-- On a document whose fields are encoded as their tags prescribe,
`bson_project` computes the projection of the specification. -/
theorem bson_project_encodeDoc (fs : List Field) (F : List Byte) (r : WT_ITEM) (fuel : Nat)
    (hfs : ∀ f ∈ fs, FieldOK f) (hF : NoZero F) (hlen : (encodeDoc fs).length < 2 ^ 31)
    (hfuel : fs.length < fuel) :
    bson_project fuel (F ++ [0]) (encodeDoc fs) r = project_spec F r fs 4 := by
  have hl := encodeDoc_length fs
  have hdec : add_le32 0 (encodeDoc fs) = some (4 + (encodeFields fs).length + 1) := by
    have := add_le32_le32 0 (4 + (encodeFields fs).length + 1) (encodeFields fs ++ [0])
      (by omega) (by omega)
    simpa [encodeDoc] using this
  have hdrop : (encodeDoc fs).drop 4 = encodeFields fs ++ [0] := by
    unfold encodeDoc
    rw [List.drop_left' (le32_length _)]
  unfold bson_project
  rw [hdec]
  exact bson_project_loop_fields (encodeDoc fs) F r _ hF (by omega) fs 4 fuel hfs hdrop rfl hfuel

theorem project_spec_found (F : List Byte) (r : WT_ITEM) (pre : List Field) :
    ∀ (f : Field) (post : List Field) (off : Nat), f.name = F → (∀ g ∈ pre, g.name ≠ F) →
      project_spec F r (pre ++ f :: post) off =
        .ret 0 { r with data := off + (encodeFields pre).length, size := f.encode.length } := by
  induction pre with
  | nil => intro f post off hf _; simp [project_spec, hf, encodeFields]
  | cons g pre ih =>
    intro f post off hf hpre
    have hg : g.name ≠ F := hpre g (by simp)
    have := ih f post (off + g.encode.length) hf (fun h hh => hpre h (by simp [hh]))
    simp [project_spec, hg, this, encodeFields]
    omega

theorem project_spec_absent (F : List Byte) (r : WT_ITEM) (fs : List Field) :
    ∀ (off : Nat), (∀ g ∈ fs, g.name ≠ F) → project_spec F r fs off = .ret 1 r := by
  induction fs with
  | nil => intro off _; simp [project_spec]
  | cons g fs ih =>
    intro off h
    have hg : g.name ≠ F := h g (by simp)
    simp [project_spec, hg, ih (off + g.encode.length) (fun x hx => h x (by simp [hx]))]

/-! ## The claims -/

/-- Claim C1, evaluated on the code: in the well-formed document with the fields
"a" (tag 3, empty embedded document) and "x" (tag 16), the name "x" is carried by
a top-level field at offset 12, yet `bson_project` returns status 1: after the
embedded document the scan moves by `1 + (L + L)` to offset 15, inside the value
of "x", and reads a zero tag there. -/
theorem bson_project_misses_field_after_embedded :
    doc_embedded = encodeDoc [field_a_empty, field_x_zero] ∧
    field_x_zero.name = [120] ∧
    bson_project 20 [120, 0] doc_embedded ⟨0, 0, 0, 0, 0⟩ = .ret 1 ⟨0, 0, 0, 0, 0⟩ ∧
    project_spec [120] ⟨0, 0, 0, 0, 0⟩ [field_a_empty, field_x_zero] 4 = .ret 0 ⟨12, 7, 0, 0, 0⟩ := by
  decide

/-- Claim C2, evaluated on the code: no top-level field of the well-formed
document with the fields "a" (tag 3) and "b" (tag 2) is named "z", yet
`bson_project` returns status 0 with the range at offset 23 of size 7, which lies
inside the string value of "b" and ends after the document (27 bytes); on the
second document, whose string payload starts with the byte 2, the scan reads
outside the 27 bytes of the document. -/
theorem bson_project_absent_name_after_embedded :
    doc_embedded_string = encodeDoc [field_a_bool, field_b_string] ∧
    field_a_bool.name ≠ [122] ∧ field_b_string.name ≠ [122] ∧
    bson_project 27 [122, 0] doc_embedded_string ⟨0, 0, 0, 0, 0⟩ = .ret 0 ⟨23, 7, 0, 0, 0⟩ ∧
    doc_embedded_string.length = 27 ∧
    doc_embedded_string2 = encodeDoc [field_a_bool, field_b_string2] ∧
    doc_embedded_string2.length = 27 ∧
    bson_project 27 [122, 0] doc_embedded_string2 ⟨0, 0, 0, 0, 0⟩ = .fault := by
  decide

/-- Claim C3, evaluated on the code: in the well-formed document with the fields
"a" (tag 3, empty embedded document) and "x", the field "a" starts at offset 4 and
the tag of "x" is at offset 12, but advancing by `1 + bson_field_size` from
offset 4 gives offset 15. -/
theorem scan_advance_embedded_overshoots :
    doc_embedded = encodeDoc [field_a_empty, field_x_zero] ∧
    4 + field_a_empty.encode.length = 12 ∧
    bson_field_size (doc_embedded.drop 4) = some 10 ∧
    scan_advance doc_embedded 4 = some 15 := by
  decide

/-- Claim C4: on a document `LE32(len) ++ f1 ++ ... ++ fn ++ [0]` of less than
`2 ^ 31` bytes whose fields have zero-free names and values of the fixed-width
tags, of tag 2, 13, 5 or 11, and for a zero-free name `F`, `bson_project` (given
more fuel than there are fields) returns status 0 with the offset of the first
field named `F` and the full encoded length of that field, and status 1 with the
result item untouched when no field is named `F`. -/
theorem bson_project_finds_first_field (fs : List Field) (F : List Byte) (r : WT_ITEM)
    (fuel : Nat) (hfs : ∀ f ∈ fs, FieldOK f) (hF : NoZero F)
    (hlen : (encodeDoc fs).length < 2 ^ 31) (hfuel : fs.length < fuel) :
    (∀ (pre : List Field) (f : Field) (post : List Field),
      fs = pre ++ f :: post → f.name = F → (∀ g ∈ pre, g.name ≠ F) →
      bson_project fuel (F ++ [0]) (encodeDoc fs) r =
        .ret 0 { r with data := 4 + (encodeFields pre).length, size := f.encode.length }) ∧
    ((∀ f ∈ fs, f.name ≠ F) →
      bson_project fuel (F ++ [0]) (encodeDoc fs) r = .ret 1 r) := by
  have h := bson_project_encodeDoc fs F r fuel hfs hF hlen hfuel
  constructor
  · intro pre f post hsplit hname hpre
    rw [h, hsplit]
    exact project_spec_found F r pre f post 4 hname hpre
  · intro habs
    rw [h]
    exact project_spec_absent F r fs 4 habs

theorem field_x_ok : ∀ f ∈ [field_x], FieldOK f := by
  intro f hf
  rw [List.mem_singleton] at hf
  subst hf
  exact ⟨by simp [NoZero, field_x], ValueOK.fixed _ 4 _ rfl rfl⟩

theorem doc_x_length : (encodeDoc [field_x]).length < 2 ^ 31 := by
  simp [encodeDoc_length, encodeFields, Field.encode_length, field_x]

/-- The scenario of the specification: in the document with the single 32-bit
integer field "x", the name "x" gives offset 4 and length 7, the name "y" gives
status 1. -/
theorem bson_project_finds_first_field_witness :
    encodeDoc [field_x] = doc_x ∧
    bson_project 2 [120, 0] doc_x ⟨0, 0, 0, 0, 0⟩ = .ret 0 ⟨4, 7, 0, 0, 0⟩ ∧
    bson_project 2 [121, 0] doc_x ⟨0, 0, 0, 0, 0⟩ = .ret 1 ⟨0, 0, 0, 0, 0⟩ :=
  ⟨by decide,
   (bson_project_finds_first_field [field_x] [120] ⟨0, 0, 0, 0, 0⟩ 2 field_x_ok (by simp [NoZero])
      doc_x_length (by decide)).1 [] field_x [] rfl rfl (by simp),
   (bson_project_finds_first_field [field_x] [121] ⟨0, 0, 0, 0, 0⟩ 2 field_x_ok (by simp [NoZero])
      doc_x_length (by decide)).2 (by decide)⟩

/-- Claim C5 as stated fails: the encoded field "x" (tag 16, name "x", four value
bytes) occupies 7 bytes, and `bson_field_size` returns 6 on it, not 7. -/
theorem bson_field_size_not_whole_field :
    field_x.encode = [16, 120, 0, 42, 0, 0, 0] ∧
    field_x.encode.length = 7 ∧
    bson_field_size (field_x.encode ++ [0]) = some 6 ∧
    bson_field_size (field_x.encode ++ [0]) ≠ some field_x.encode.length := by
  decide

/-- Claim C5, amended: on an encoded field with a zero-free name and a value of a
fixed-width tag or of tag 2, 13, 5 or 11 (value shorter than `2 ^ 31` bytes),
`bson_field_size` returns the number of bytes of the null-terminated name and of
the value, which is the number of bytes of the field less the one byte of its
type tag. -/
theorem bson_field_size_field_without_tag (f : Field) (rest : List Byte) (hf : FieldOK f)
    (hname : f.name.length < 2 ^ 63) (hvalue : f.value.length < 2 ^ 31) :
    bson_field_size (f.encode ++ rest) = some ((f.name.length + 1) + f.value.length) ∧
    f.encode.length = 1 + ((f.name.length + 1) + f.value.length) :=
  ⟨bson_field_size_FieldOK f rest hf hname hvalue, Field.encode_length f⟩

/-- The field "x" of the scenario: 6 bytes of name and value, 7 bytes in all. -/
theorem bson_field_size_field_without_tag_witness :
    bson_field_size [16, 120, 0, 42, 0, 0, 0, 0] = some 6 ∧ field_x.encode.length = 1 + 6 :=
  bson_field_size_field_without_tag field_x [0] (field_x_ok field_x (by simp))
    (by simp [field_x]) (by simp [field_x])

/-- Claim C6: for a field whose tag has the fixed width `w` of the table (tags 1,
7, 8, 9, 16, 17, 18, 19 with widths 8, 12, 1, 8, 4, 8, 8, 16) and for every name,
`bson_field_size` returns `w + name_len` (provided that sum fits a `size_t`), and
at every index below 32 `typeSizes` holds the fixed width of the tag, 0 for every
other tag. -/
theorem bson_field_size_fixed_width (t : Byte) (name rest : List Byte) (w : Nat)
    (hw : fixedWidth t.val = some w) (hn : NoZero name)
    (hsz : w + (name.length + 1) < 2 ^ 64) :
    bson_field_size (t :: (name ++ 0 :: rest)) = some (w + (name.length + 1)) ∧
    (∀ u, u < 32 → typeSizes[u]? = some ((fixedWidth u).getD 0)) ∧
    (∀ u, u < 32 → u ∉ [1, 7, 8, 9, 16, 17, 18, 19] → typeSizes[u]? = some 0) :=
  ⟨bson_field_size_fixed t name rest w hw hn hsz, typeSizes_fixedWidth, by decide⟩

/-- A 32-bit integer field named "x": width 4 and a name of 2 bytes. -/
theorem bson_field_size_fixed_width_witness :
    bson_field_size [16, 120, 0, 42, 0, 0, 0, 0] = some (4 + 2) :=
  (bson_field_size_fixed_width 16 [120] [42, 0, 0, 0, 0] 4 rfl (by simp [NoZero])
    (by simp)).1

/-- Claim C7: for a field of tag 2 or 13 whose name is followed by the four-byte
little-endian length `L < 2 ^ 31`, `bson_field_size` returns
`(4 + L) + name_len` (provided that sum fits a `size_t`). -/
theorem bson_field_size_string_like (t : Byte) (name rest : List Byte) (L : Nat)
    (ht : t.val = 2 ∨ t.val = 13) (hn : NoZero name) (hL : L < 2 ^ 31)
    (hsz : (4 + L) + (name.length + 1) < 2 ^ 64) :
    bson_field_size (t :: (name ++ 0 :: (le32 L ++ rest))) =
      some ((4 + L) + (name.length + 1)) :=
  bson_field_size_string t name rest L ht hn hL hsz

/-- The scenario of the specification: tag 2, name "s", `L = 6` gives 12. -/
theorem bson_field_size_string_like_witness :
    bson_field_size [2, 115, 0, 6, 0, 0, 0, 104, 101, 108, 108, 111, 0] = some 12 :=
  bson_field_size_string_like 2 [115] [104, 101, 108, 108, 111, 0] 6 (Or.inl rfl)
    (by simp [NoZero]) (by simp) (by simp)

/-- Claim C8: for a field of tag 5 whose name is followed by the four-byte
little-endian length `L < 2 ^ 31`, `bson_field_size` returns
`(5 + L) + name_len` (provided that sum fits a `size_t`). -/
theorem bson_field_size_binary_data (t : Byte) (name rest : List Byte) (L : Nat)
    (ht : t.val = 5) (hn : NoZero name) (hL : L < 2 ^ 31)
    (hsz : (5 + L) + (name.length + 1) < 2 ^ 64) :
    bson_field_size (t :: (name ++ 0 :: (le32 L ++ rest))) =
      some ((5 + L) + (name.length + 1)) :=
  bson_field_size_binary t name rest L ht hn hL hsz

/-- A binary field named "b" with subtype 0 and two data bytes: `(5 + 2) + 2`. -/
theorem bson_field_size_binary_data_witness :
    bson_field_size [5, 98, 0, 2, 0, 0, 0, 0, 1, 2] = some 9 :=
  bson_field_size_binary_data 5 [98] [0, 1, 2] 2 rfl (by simp [NoZero]) (by simp) (by simp)

/-- Claim C9: for a field of tag 11 whose name is followed by two null-terminated
strings of `len1` and `len2` bytes (terminators included), `bson_field_size`
returns `(len1 + len2) + name_len` (provided that sum fits a `size_t`). -/
theorem bson_field_size_two_strings (t : Byte) (name s1 s2 rest : List Byte)
    (ht : t.val = 11) (hn : NoZero name) (h1 : NoZero s1) (h2 : NoZero s2)
    (hsz : ((s1.length + 1) + (s2.length + 1)) + (name.length + 1) < 2 ^ 64) :
    bson_field_size (t :: (name ++ 0 :: (s1 ++ 0 :: (s2 ++ 0 :: rest)))) =
      some (((s1.length + 1) + (s2.length + 1)) + (name.length + 1)) :=
  bson_field_size_regex t name s1 s2 rest ht hn h1 h2 hsz

/-- A regex field named "r" with pattern "ab" and options "i": `(3 + 2) + 2`. -/
theorem bson_field_size_two_strings_witness :
    bson_field_size [11, 114, 0, 97, 98, 0, 105, 0, 0] = some 7 :=
  bson_field_size_two_strings 11 [114] [97, 98] [105] [0] rfl (by simp [NoZero])
    (by simp [NoZero]) (by simp [NoZero]) (by simp)

/-- Claim C10: for a field of tag 3 or 4 whose null-terminated name is followed by
the four-byte little-endian length `L < 2 ^ 31`, `bson_field_size` returns
`L + L`; the length of the name does not enter the result. -/
theorem bson_field_size_embedded_doubles (t : Byte) (name rest : List Byte) (L : Nat)
    (ht : t.val = 3 ∨ t.val = 4) (hn : NoZero name) (hL : L < 2 ^ 31)
    (hsz : name.length + 1 < 2 ^ 64) :
    bson_field_size (t :: (name ++ 0 :: (le32 L ++ rest))) = some (L + L) :=
  bson_field_size_embedded t name rest L ht hn hL hsz

/-- An embedded-document field named "a" holding the empty document: `5 + 5`. -/
theorem bson_field_size_embedded_doubles_witness :
    bson_field_size [3, 97, 0, 5, 0, 0, 0, 0] = some 10 :=
  bson_field_size_embedded_doubles 3 [97] [0] 5 (Or.inl rfl) (by simp [NoZero]) (by simp)
    (by simp)

/-! ## Tags without a size rule, the zero tag, and the statuses -/

theorem bson_field_size_no_rule (t : Byte) (name rest : List Byte) (hn : NoZero name)
    (ht : t.val ∈ [0, 6, 10, 12, 14, 15] ∨ (20 ≤ t.val ∧ t.val ≤ 31)) :
    bson_field_size (t :: (name ++ 0 :: rest)) = some 0 := by
  have h : t.val = 0 ∨ t.val = 6 ∨ t.val = 10 ∨ t.val = 12 ∨ t.val = 14 ∨ t.val = 15 ∨
      t.val = 20 ∨ t.val = 21 ∨ t.val = 22 ∨ t.val = 23 ∨ t.val = 24 ∨ t.val = 25 ∨
      t.val = 26 ∨ t.val = 27 ∨ t.val = 28 ∨ t.val = 29 ∨ t.val = 30 ∨ t.val = 31 := by
    simp only [List.mem_cons, List.mem_singleton, List.not_mem_nil, or_false] at ht
    omega
  simp only [bson_field_size, List.getElem?_cons_zero, List.drop_succ_cons, List.drop_zero,
    strlen_append name rest hn]
  rcases h with h | h | h | h | h | h | h | h | h | h | h | h | h | h | h | h | h | h <;>
    simp [h, typeSizes]

theorem bson_project_body_zero (data proj : List Byte) (r : WT_ITEM) (o : Nat)
    (h : data[o]? = some 0) : bson_project_body data proj r o = some (.ret 1 r) := by
  simp [bson_project_body, h]

theorem bson_project_body_ret (data proj : List Byte) (r : WT_ITEM) (o : Nat) (s : Int)
    (r2 : WT_ITEM) (h : bson_project_body data proj r o = some (.ret s r2)) :
    (s = 1 ∧ r2 = r ∧ data[o]? = some 0) ∨
    (s = 0 ∧ ∃ t fs, data[o]? = some t ∧ t ≠ 0 ∧ bson_field_size (data.drop o) = some fs ∧
      strcmp proj (data.drop (o + 1)) = some 0 ∧ r2 = { r with data := o, size := size_add 1 fs }) := by
  unfold bson_project_body at h
  cases ht : data[o]? with
  | none => simp [ht] at h
  | some t =>
    by_cases h0 : t = 0
    · subst h0
      simp [ht] at h
      exact Or.inl ⟨h.1.symm, h.2.symm, rfl⟩
    · cases hfs : bson_field_size (data.drop o) with
      | none => simp [ht, h0, hfs] at h
      | some fs =>
        cases hc : strcmp proj (data.drop (o + 1)) with
        | none => simp [ht, h0, hfs, hc] at h
        | some c =>
          by_cases hc0 : c = 0
          · subst hc0
            simp [ht, h0, hfs, hc] at h
            exact Or.inr ⟨h.1.symm, t, fs, rfl, h0, rfl, rfl, h.2.symm⟩
          · simp [ht, h0, hfs, hc, hc0] at h

theorem bson_project_body_next (data proj : List Byte) (r : WT_ITEM) (o o2 : Nat)
    (h : bson_project_body data proj r o = some (.next o2)) :
    ∃ t fs c, data[o]? = some t ∧ t ≠ 0 ∧ bson_field_size (data.drop o) = some fs ∧
      strcmp proj (data.drop (o + 1)) = some c ∧ c ≠ 0 ∧
      o2 = size_add o (size_add 1 fs) := by
  unfold bson_project_body at h
  cases ht : data[o]? with
  | none => simp [ht] at h
  | some t =>
    by_cases h0 : t = 0
    · subst h0
      simp [ht] at h
    · cases hfs : bson_field_size (data.drop o) with
      | none => simp [ht, h0, hfs] at h
      | some fs =>
        cases hc : strcmp proj (data.drop (o + 1)) with
        | none => simp [ht, h0, hfs, hc] at h
        | some c =>
          by_cases hc0 : c = 0
          · subst hc0
            simp [ht, h0, hfs, hc] at h
          · simp [ht, h0, hfs, hc, hc0] at h
            exact ⟨t, fs, c, rfl, h0, rfl, rfl, hc0, h.symm⟩

/-- Every return of the loop: status 1 with the result item as it was, or
status 0 with the offset and `1 + field_size` of a field whose name compares
equal to the target. -/
theorem bson_project_loop_ret (data proj : List Byte) (r : WT_ITEM) (len : Nat) :
    ∀ (fuel o : Nat) (s : Int) (r2 : WT_ITEM),
      bson_project_loop data proj r len fuel o = .ret s r2 →
      (s = 1 ∧ r2 = r) ∨
      (s = 0 ∧ ∃ o2 t fs, o2 < len ∧ data[o2]? = some t ∧ t ≠ 0 ∧
        bson_field_size (data.drop o2) = some fs ∧
        strcmp proj (data.drop (o2 + 1)) = some 0 ∧ r2 = { r with data := o2, size := size_add 1 fs }) := by
  intro fuel
  induction fuel with
  | zero =>
    intro o s r2 h
    unfold bson_project_loop at h
    split_ifs at h
    cases h
    exact Or.inl ⟨rfl, rfl⟩
  | succ k ih =>
    intro o s r2 h
    unfold bson_project_loop at h
    split_ifs at h with hlt
    · cases hb : bson_project_body data proj r o with
      | none => simp [hb] at h
      | some st =>
        cases st with
        | ret s1 r1 =>
          simp [hb] at h
          obtain ⟨hs, hr⟩ := h
          subst hs
          subst hr
          rcases bson_project_body_ret data proj r o s1 r1 hb with h1 | h1
          · exact Or.inl ⟨h1.1, h1.2.1⟩
          · obtain ⟨hs, t, fs, h2, h3, h4, h5, h6⟩ := h1
            exact Or.inr ⟨hs, o, t, fs, hlt, h2, h3, h4, h5, h6⟩
        | next o2 =>
          simp [hb] at h
          exact ih o2 s r2 h
    · cases h
      exact Or.inl ⟨rfl, rfl⟩

theorem bson_project_ret (fuel : Nat) (proj value : List Byte) (r : WT_ITEM) (s : Int)
    (r2 : WT_ITEM) (h : bson_project fuel proj value r = .ret s r2) :
    (s = 1 ∧ r2 = r) ∨
    (s = 0 ∧ ∃ len o t fs, add_le32 0 value = some len ∧ o < len ∧ value[o]? = some t ∧
      t ≠ 0 ∧ bson_field_size (value.drop o) = some fs ∧
      strcmp proj (value.drop (o + 1)) = some 0 ∧ r2 = { r with data := o, size := size_add 1 fs }) := by
  unfold bson_project at h
  cases hl : add_le32 0 value with
  | none => simp [hl] at h
  | some len =>
    simp [hl] at h
    rcases bson_project_loop_ret value proj r len fuel 4 s r2 h with h1 | h1
    · exact Or.inl h1
    · obtain ⟨hs, o, t, fs, h2⟩ := h1
      exact Or.inr ⟨hs, len, o, t, fs, rfl, h2⟩

theorem add_le32_value (acc : Nat) (b0 b1 b2 b3 : Byte) (rest : List Byte)
    (hacc : acc + 2 ^ 32 ≤ 2 ^ 64) :
    add_le32 acc (b0 :: b1 :: b2 :: b3 :: rest) =
      some (if b3.val < 128 then acc + le32_value b0 b1 b2 b3
        else (acc + le32_value b0 b1 b2 b3 + (2 ^ 64 - 2 ^ 32)) % 2 ^ 64) := by
  have h0 := b0.isLt
  have h1 := b1.isLt
  have h2 := b2.isLt
  have h3 := b3.isLt
  simp only [add_le32, size_add, shl_int_to_size, le32_value, Option.some.injEq]
  split_ifs <;> omega

theorem typeSizes_outside (t : Byte) (h : 32 ≤ t.val) : typeSizes[t.val]? = none := by
  apply List.getElem?_eq_none
  simpa [typeSizes] using h

/-- Claim C11: for a field whose tag is one of 0, 6, 10, 12, 14, 15, 20, ..., 31
(no size rule) and whose name is terminated in the buffer, `bson_field_size`
returns 0, whatever the name and the bytes after it are. -/
theorem bson_field_size_unhandled_tag (t : Byte) (name rest : List Byte) (hn : NoZero name)
    (ht : t.val ∈ [0, 6, 10, 12, 14, 15] ∨ (20 ≤ t.val ∧ t.val ≤ 31)) :
    bson_field_size (t :: (name ++ 0 :: rest)) = some 0 :=
  bson_field_size_no_rule t name rest hn ht

/-- A field of tag 10 named "n": size 0. -/
theorem bson_field_size_unhandled_tag_witness :
    bson_field_size [10, 110, 0, 0] = some 0 :=
  bson_field_size_unhandled_tag 10 [110] [0] (by simp [NoZero]) (Or.inl (by decide))

/-- Claim C12: whenever the byte at the scan offset `o < len` is 0, the loop body
returns status 1 with the result item untouched, whatever `bson_field_size` and
the name comparison would give there, and so does the loop; in particular
`bson_project` returns status 1 on the document without fields (declared length
5, a 0 byte at offset 4) for every field name. -/
theorem bson_project_zero_tag_stops (data proj : List Byte) (r : WT_ITEM)
    (len fuel o : Nat) (ho : o < len) (h0 : data[o]? = some 0) :
    bson_project_body data proj r o = some (.ret 1 r) ∧
    bson_project_loop data proj r len (fuel + 1) o = .ret 1 r ∧
    bson_project (fuel + 1) proj doc_empty r = .ret 1 r := by
  have hb := bson_project_body_zero data proj r o h0
  refine ⟨hb, ?_, ?_⟩
  · simp [bson_project_loop, ho, hb]
  · have hl : add_le32 0 doc_empty = some 5 := by decide
    have hz : bson_project_body doc_empty proj r 4 = some (.ret 1 r) :=
      bson_project_body_zero doc_empty proj r 4 (by decide)
    simp [bson_project, hl, bson_project_loop, hz]

/-- The document without fields and the empty buffer as field name: neither
`bson_field_size` nor `strcmp` could be evaluated there, and the result is
status 1. -/
theorem bson_project_zero_tag_stops_witness :
    bson_field_size (doc_empty.drop 4) = none ∧ strcmp [] (doc_empty.drop 5) = none ∧
    bson_project_body doc_empty [] ⟨0, 0, 0, 0, 0⟩ 4 = some (.ret 1 ⟨0, 0, 0, 0, 0⟩) ∧
    bson_project_loop doc_empty [] ⟨0, 0, 0, 0, 0⟩ 5 1 4 = .ret 1 ⟨0, 0, 0, 0, 0⟩ ∧
    bson_project 1 [] doc_empty ⟨0, 0, 0, 0, 0⟩ = .ret 1 ⟨0, 0, 0, 0, 0⟩ :=
  ⟨by decide, by decide,
    bson_project_zero_tag_stops doc_empty [] ⟨0, 0, 0, 0, 0⟩ 5 0 4 (by decide) (by decide)⟩

/-- Claim C13 as stated fails: in the document whose only field has tag 10 (no
size rule, `bson_field_size` returns 0) and the name "n", `bson_project` for "n"
returns status 0 with that field as the match, offset 4 and size 1. -/
theorem bson_project_unhandled_tag_matches :
    doc_null_n[4]? = some 10 ∧
    bson_field_size (doc_null_n.drop 4) = some 0 ∧
    bson_project 8 [110, 0] doc_null_n ⟨0, 0, 0, 0, 0⟩ = .ret 0 ⟨4, 1, 0, 0, 0⟩ := by
  decide

/-- Claim C13, amended: there is no decode-failure status.  At a field for which
`bson_field_size` returns 0, the loop body returns status 0 with the offset of
the field and size 1 when the name compares equal to the target, and moves the
scan on by one byte otherwise; every status `bson_project` returns is 0 or 1. -/
theorem bson_project_unhandled_tag_no_failure (data proj : List Byte) (r : WT_ITEM)
    (o : Nat) (t : Byte) (ht : data[o]? = some t) (ht0 : t ≠ 0)
    (hfs : bson_field_size (data.drop o) = some 0) :
    (strcmp proj (data.drop (o + 1)) = some 0 →
      bson_project_body data proj r o = some (.ret 0 { r with data := o, size := 1 })) ∧
    (∀ c, strcmp proj (data.drop (o + 1)) = some c → c ≠ 0 →
      bson_project_body data proj r o = some (.next (size_add o 1))) ∧
    (∀ (fuel : Nat) (s : Int) (r2 : WT_ITEM),
      bson_project fuel proj data r = .ret s r2 → s = 0 ∨ s = 1) := by
  refine ⟨?_, ?_, ?_⟩
  · intro hc
    simp [bson_project_body, ht, ht0, hfs, hc, size_add]
  · intro c hc hc0
    simp [bson_project_body, ht, ht0, hfs, hc, hc0, size_add]
  · intro fuel s r2 h
    rcases bson_project_ret fuel proj data r s r2 h with h1 | h1
    · exact Or.inr h1.1
    · exact Or.inl h1.1

/-- The field of tag 10 named "n": a match for "n", one byte on for "y". -/
theorem bson_project_unhandled_tag_no_failure_witness :
    bson_project_body doc_null_n [110, 0] ⟨0, 0, 0, 0, 0⟩ 4 = some (.ret 0 ⟨4, 1, 0, 0, 0⟩) ∧
    bson_project_body doc_null_n [121, 0] ⟨0, 0, 0, 0, 0⟩ 4 = some (.next 5) :=
  ⟨(bson_project_unhandled_tag_no_failure doc_null_n [110, 0] ⟨0, 0, 0, 0, 0⟩ 4 10 (by decide)
      (by decide) (by decide)).1 (by decide),
   (bson_project_unhandled_tag_no_failure doc_null_n [121, 0] ⟨0, 0, 0, 0, 0⟩ 4 10 (by decide)
      (by decide) (by decide)).2.1 11 (by decide) (by decide)⟩

/-- Claim C14, evaluated on the code: for the bytes 00 00 00 80 the unsigned
little-endian value is `2 ^ 31`, but the four additions give `2 ^ 64 - 2 ^ 31`,
because `data[3] << 24` is a negative `int` that is sign-extended; in general the
result is the unsigned value when `b3 < 0x80` and that value plus
`2 ^ 64 - 2 ^ 32` otherwise, both for `len` in `bson_project` and for the length
read in `bson_field_size`. -/
theorem add_le32_sign_extends :
    le32_value 0 0 0 128 = 2 ^ 31 ∧
    add_le32 0 [0, 0, 0, 128] = some (2 ^ 64 - 2 ^ 31) ∧
    bson_field_size [2, 115, 0, 0, 0, 0, 128] = some (2 ^ 64 - 2 ^ 31 + 6) ∧
    (∀ (b0 b1 b2 b3 : Byte) (rest : List Byte),
      add_le32 0 (b0 :: b1 :: b2 :: b3 :: rest) =
        some (if b3.val < 128 then le32_value b0 b1 b2 b3
          else le32_value b0 b1 b2 b3 + (2 ^ 64 - 2 ^ 32))) := by
  refine ⟨by decide, by decide, by decide, ?_⟩
  intro b0 b1 b2 b3 rest
  have h0 := b0.isLt
  have h1 := b1.isLt
  have h2 := b2.isLt
  have h3 := b3.isLt
  rw [add_le32_value 0 b0 b1 b2 b3 rest (by norm_num)]
  simp only [le32_value, Option.some.injEq]
  split_ifs <;> omega

/-- Claim C15 as stated fails: in the document whose only field has tag 10 and
the empty name, the scan for "y" reaches that field at offset 4, its name differs
from "y" and `bson_field_size` returns 0; the advance leads to offset 5, not back
to offset 4, and `bson_project` terminates with status 1. -/
theorem bson_project_zero_size_terminates :
    doc_null_empty[4]? = some 10 ∧
    bson_field_size (doc_null_empty.drop 4) = some 0 ∧
    strcmp [121, 0] (doc_null_empty.drop 5) = some 121 ∧
    scan_advance doc_null_empty 4 = some 5 ∧
    bson_project 2 [121, 0] doc_null_empty ⟨0, 0, 0, 0, 0⟩ = .ret 1 ⟨0, 0, 0, 0, 0⟩ := by
  decide

/-- Claim C15, amended: at an offset `o < len` with a field whose name differs
from the target and for which `bson_field_size` returns 0, the advance
`offset += 1 + field_size` sets the offset to `o + 1`, not back to `o`: the loop
body hands over to `o + 1`, and the loop from `o` is, one iteration later, the
loop from `o + 1`.  What the scan does from `o + 1` on is not part of the
statement. -/
theorem bson_project_zero_size_advances (data proj : List Byte) (r : WT_ITEM)
    (len fuel o : Nat) (t : Byte) (c : Int) (ho : o < len) (hw : o + 1 < 2 ^ 64)
    (ht : data[o]? = some t) (ht0 : t ≠ 0)
    (hfs : bson_field_size (data.drop o) = some 0)
    (hc : strcmp proj (data.drop (o + 1)) = some c) (hc0 : c ≠ 0) :
    scan_advance data o = some (o + 1) ∧
    bson_project_body data proj r o = some (.next (o + 1)) ∧
    bson_project_loop data proj r len (fuel + 1) o =
      bson_project_loop data proj r len fuel (o + 1) := by
  have e : size_add o (size_add 1 0) = o + 1 := by
    unfold size_add; omega
  have hb : bson_project_body data proj r o = some (.next (o + 1)) := by
    simp [bson_project_body, ht, ht0, hfs, hc, hc0, e]
  refine ⟨?_, hb, ?_⟩
  · simp [scan_advance, hfs, e]
  · simp [bson_project_loop, ho, hb]

/-- The field of tag 10 with the empty name, target "y": from offset 4 to 5. -/
theorem bson_project_zero_size_advances_witness :
    scan_advance doc_null_empty 4 = some 5 ∧
    bson_project_body doc_null_empty [121, 0] ⟨0, 0, 0, 0, 0⟩ 4 = some (.next 5) ∧
    bson_project_loop doc_null_empty [121, 0] ⟨0, 0, 0, 0, 0⟩ 7 2 4 =
      bson_project_loop doc_null_empty [121, 0] ⟨0, 0, 0, 0, 0⟩ 7 1 5 :=
  bson_project_zero_size_advances doc_null_empty [121, 0] ⟨0, 0, 0, 0, 0⟩ 7 1 4 10 121
    (by decide) (by norm_num) (by decide) (by decide) (by decide) (by decide) (by decide)

/-- Claim C17, evaluated on the code: on the 10-byte buffer `doc_wrap` (length
bytes 16, "x", 0, 0, then a field of tag 2 with the empty name and the length
bytes f6 ff ff ff) and the name "x", every read is inside the buffer and
`bson_project` returns status 0 with the range at offset 0, below 4: the length
is sign-extended, `bson_field_size` returns `2 ^ 64 - 5` and the offset
`4 + (1 + field_size)` wraps to 0. -/
theorem bson_project_match_below_offset_four :
    doc_wrap.length = 10 ∧
    add_le32 0 doc_wrap = some 30736 ∧
    bson_field_size (doc_wrap.drop 4) = some (2 ^ 64 - 5) ∧
    scan_advance doc_wrap 4 = some 0 ∧
    bson_project 2 [120, 0] doc_wrap ⟨0, 0, 0, 0, 0⟩ = .ret 0 ⟨0, 7, 0, 0, 0⟩ := by
  decide

/-- Claim C18, evaluated on the code: `typeSizes` has 32 entries and every tag
byte from 32 to 255 indexes it outside; in the document whose only field has tag
127 and the name "k", `bson_project` passes the tag 127 to `bson_field_size`,
whose lookup `typeSizes[127]` is outside the table. -/
theorem typeSizes_lookup_outside_table :
    typeSizes.length = 32 ∧
    doc_maxkey[4]? = some 127 ∧
    typeSizes[(127 : Byte).val]? = none ∧
    bson_field_size (doc_maxkey.drop 4) = none ∧
    bson_project 8 [107, 0] doc_maxkey ⟨0, 0, 0, 0, 0⟩ = .fault ∧
    (∀ t : Byte, 32 ≤ t.val → typeSizes[t.val]? = none) :=
  ⟨by decide, by decide, by decide, by decide, by decide, typeSizes_outside⟩

/-- Claim C19: whenever a call of `bson_project` returns, the bytes of the
document are the ones it was given; with status 1 the caller's result item is
exactly as it was on entry; with status 0 the fields `mem`, `memsize` and `flags`
of the item are as they were, and the item is the one on entry with `data` set to
the offset of a field and `size` set to `1 + field_size`.  The status is 0 or 1. -/
theorem bson_project_frame (fuel : Nat) (proj : List Byte) (m : Memory) (s : Int)
    (m2 : Memory) (h : bson_project_mem fuel proj m = some (s, m2)) :
    m2.document = m.document ∧
    (s = 0 ∨ s = 1) ∧
    (s = 1 → m2.result = m.result) ∧
    (s = 0 → m2.result.mem = m.result.mem ∧ m2.result.memsize = m.result.memsize ∧
      m2.result.flags = m.result.flags ∧
      ∃ o fs, bson_field_size (m.document.drop o) = some fs ∧
        m2.result = { m.result with data := o, size := size_add 1 fs }) := by
  unfold bson_project_mem at h
  cases hout : bson_project fuel proj m.document m.result with
  | fault => rw [hout] at h; cases h
  | timeout => rw [hout] at h; cases h
  | ret s1 r1 =>
    rw [hout] at h
    cases h
    rcases bson_project_ret fuel proj m.document m.result s r1 hout with h1 | h1
    · obtain ⟨hs, hr⟩ := h1
      subst hs
      subst hr
      exact ⟨rfl, Or.inr rfl, fun _ => rfl, fun h0 => absurd h0 (by decide)⟩
    · obtain ⟨hs, len, o, t, fs, _, _, _, _, hfs, _, hr⟩ := h1
      subst hs
      subst hr
      exact ⟨rfl, Or.inl rfl, fun h0 => absurd h0 (by decide),
        fun _ => ⟨rfl, rfl, rfl, o, fs, hfs, rfl⟩⟩

/-- The document with the field "x" and the item (9, 9, 77, 88, 99): for "x" the
call returns status 0, the item becomes (4, 7, 77, 88, 99) and the document is
unchanged; for "y" it returns status 1 and the whole memory is unchanged. -/
theorem bson_project_frame_witness :
    (bson_project_mem 2 [120, 0] mem_x = some (0, mem_x_found) ∧
      mem_x_found.document = mem_x.document ∧
      (mem_x_found.result.mem = mem_x.result.mem ∧
        mem_x_found.result.memsize = mem_x.result.memsize ∧
        mem_x_found.result.flags = mem_x.result.flags ∧
        ∃ o fs, bson_field_size (mem_x.document.drop o) = some fs ∧
          mem_x_found.result = { mem_x.result with data := o, size := size_add 1 fs })) ∧
    (bson_project_mem 2 [121, 0] mem_x = some (1, mem_x) ∧
      mem_x.document = mem_x.document ∧ mem_x.result = mem_x.result) :=
  ⟨⟨by decide,
    (bson_project_frame 2 [120, 0] mem_x 0 mem_x_found (by decide)).1,
    (bson_project_frame 2 [120, 0] mem_x 0 mem_x_found (by decide)).2.2.2 rfl⟩,
   ⟨by decide,
    (bson_project_frame 2 [121, 0] mem_x 1 mem_x (by decide)).1,
    (bson_project_frame 2 [121, 0] mem_x 1 mem_x (by decide)).2.2.1 rfl⟩⟩

/-! ## Termination of the scan -/

theorem strlen_lt (s : List Byte) : ∀ n, strlen s = some n → n < s.length := by
  induction s with
  | nil => intro n h; simp [strlen] at h
  | cons c s ih =>
    intro n h
    unfold strlen at h
    split_ifs at h with hc
    · cases h
      simp
    · cases hs : strlen s with
      | none => simp [hs] at h
      | some m =>
        simp [hs] at h
        have := ih m hs
        simp only [List.length_cons]
        omega

theorem typeSizes_le (i w : Nat) (h : typeSizes[i]? = some w) : w ≤ 16 := by
  have hall : ∀ j, j < 32 → (typeSizes[j]?).getD 0 ≤ 16 := by decide
  by_cases hi : i < 32
  · have := hall i hi
    rw [h] at this
    simpa using this
  · have hnone : typeSizes[i]? = none := by
      apply List.getElem?_eq_none
      simp [typeSizes]
      omega
    rw [hnone] at h
    cases h

theorem add_le32_lt (acc v : Nat) (data : List Byte) (hacc : acc ≤ 5)
    (h : add_le32 acc data = some v) (htop : TopByteOK (data.take 4)) : v < acc + 2 ^ 31 := by
  match data, h, htop with
  | b0 :: b1 :: b2 :: b3 :: rest, h, htop =>
    have h3 : b3.val < 128 := htop b3 (by simp)
    rw [add_le32_value acc b0 b1 b2 b3 rest (by omega)] at h
    have h0 := b0.isLt
    have h1 := b1.isLt
    have h2 := b2.isLt
    simp only [h3, if_true, Option.some.injEq, le32_value] at h
    omega
  | [], h, _ => simp [add_le32] at h
  | [_], h, _ => simp [add_le32] at h
  | [_, _], h, _ => simp [add_le32] at h
  | [_, _, _], h, _ => simp [add_le32] at h

/-- When the length that `bson_field_size` reads has its top byte below `0x80`,
the size it returns is bounded by the size of the buffer plus `2 ^ 33`. -/
theorem bson_field_size_lt (bytes : List Byte) (fs : Nat)
    (h : bson_field_size bytes = some fs)
    (htop : ∀ d, length_field bytes = some d → TopByteOK d)
    (hsz : bytes.length < 2 ^ 63) : fs < bytes.length + 2 ^ 33 := by
  unfold bson_field_size at h
  cases ht : bytes[0]? with
  | none => simp [ht] at h
  | some t =>
    cases hn : strlen (bytes.drop 1) with
    | none => simp only [ht, hn] at h; cases h
    | some n =>
      have hnlt := strlen_lt _ n hn
      simp only [List.length_drop] at hnlt
      have hfns : size_add 1 n = n + 1 := by
        unfold size_add; omega
      cases hw : typeSizes[t.val]? with
      | none => simp only [ht, hn, hw] at h; cases h
      | some w =>
        have hw16 := typeSizes_le _ w hw
        simp only [ht, hn, hw, hfns] at h
        have hlf : (t.val = 3 ∨ t.val = 4 ∨ t.val = 5 ∨ t.val = 2 ∨ t.val = 13) →
            TopByteOK (((bytes.drop 1).drop (n + 1)).take 4) := by
          intro hset
          apply htop
          simp only [length_field, ht, hn, hfns, hset, if_true]
        split_ifs at h with h1 h2 h3 h4 h5
        · simp only [Option.some.injEq, size_add] at h
          omega
        · cases hv : add_le32 0 ((bytes.drop 1).drop (n + 1)) with
          | none => rw [hv] at h; simp at h
          | some v =>
            have hb := add_le32_lt 0 v _ (by omega) hv
              (hlf (by rcases h2 with h2 | h2 <;> simp [h2]))
            rw [hv] at h
            simp only [Option.map_some', Option.some.injEq, size_add] at h
            omega
        · cases hv : add_le32 5 ((bytes.drop 1).drop (n + 1)) with
          | none => rw [hv] at h; simp at h
          | some v =>
            have hb := add_le32_lt 5 v _ (by omega) hv (hlf (by simp [h3]))
            rw [hv] at h
            simp only [Option.map_some', Option.some.injEq, size_add] at h
            omega
        · cases hv : add_le32 4 ((bytes.drop 1).drop (n + 1)) with
          | none => rw [hv] at h; simp at h
          | some v =>
            have hb := add_le32_lt 4 v _ (by omega) hv
              (hlf (by rcases h4 with h4 | h4 <;> simp [h4]))
            rw [hv] at h
            simp only [Option.map_some', Option.some.injEq, size_add] at h
            omega
        · cases hn1 : strlen ((bytes.drop 1).drop (n + 1)) with
          | none => rw [hn1] at h; simp at h
          | some n1 =>
            have hn1lt := strlen_lt _ n1 hn1
            simp only [List.length_drop] at hn1lt
            have e1 : size_add n1 1 = n1 + 1 := by
              unfold size_add; omega
            rw [hn1] at h
            simp only [e1] at h
            cases hn2 : strlen (((bytes.drop 1).drop (n + 1)).drop (n1 + 1)) with
            | none => rw [hn2] at h; simp at h
            | some n2 =>
              have hn2lt := strlen_lt _ n2 hn2
              simp only [List.length_drop] at hn2lt
              rw [hn2] at h
              simp only [Option.some.injEq, size_add] at h
              omega
        · simp only [Option.some.injEq] at h
          omega

/-- An iteration of the loop that goes on moves the offset up by at least 1,
when the length read in it has its top byte below `0x80`. -/
theorem bson_project_body_next_gt (data proj : List Byte) (r : WT_ITEM) (o o2 : Nat)
    (h : bson_project_body data proj r o = some (.next o2))
    (htop : ∀ d, length_field (data.drop o) = some d → TopByteOK d)
    (hsz : data.length < 2 ^ 63) (ho : o < 2 ^ 31) : o + 1 ≤ o2 := by
  obtain ⟨t, fs, c, _, _, hfs, _, _, ho2⟩ := bson_project_body_next data proj r o o2 h
  have hlen : (data.drop o).length ≤ data.length := by
    simp only [List.length_drop]; omega
  have hb := bson_field_size_lt (data.drop o) fs hfs htop (by omega)
  rw [ho2]
  unfold size_add
  omega

theorem bson_project_loop_no_timeout (data proj : List Byte) (r : WT_ITEM) (len : Nat)
    (hsz : data.length < 2 ^ 63) (hlen : len < 2 ^ 31)
    (hreads : ∀ o, Visits data proj r len o → o < len →
      ∀ d, length_field (data.drop o) = some d → TopByteOK d) :
    ∀ (fuel o : Nat), Visits data proj r len o → len ≤ o + fuel →
      bson_project_loop data proj r len fuel o ≠ .timeout := by
  intro fuel
  induction fuel with
  | zero =>
    intro o _ hle
    have : ¬ o < len := by omega
    simp [bson_project_loop, this]
  | succ k ih =>
    intro o hv hle
    unfold bson_project_loop
    split_ifs with hlt
    · cases hb : bson_project_body data proj r o with
      | none => simp
      | some st =>
        cases st with
        | ret s1 r1 => simp
        | next o2 =>
          have hgt := bson_project_body_next_gt data proj r o o2 hb (hreads o hv hlt) hsz
            (by omega)
          simpa using ih o2 (Visits.step o o2 hv hlt hb) (by omega)
    · simp

/-- Claim C16 as stated fails: in the 5-byte buffer `doc_short` the length bytes
are 05 00 00 00 and the scan reads no other length, but the field at offset 4
(tag 1) has its name outside the buffer: `strlen` leaves the buffer and
`bson_project` does not end with status 0 or 1. -/
theorem bson_project_leaves_buffer :
    doc_short.length = 5 ∧
    add_le32 0 doc_short = some 5 ∧
    doc_short[3]? = some 0 ∧
    length_field (doc_short.drop 4) = none ∧
    strlen (doc_short.drop 5) = none ∧
    bson_project 1 [120, 0] doc_short ⟨0, 0, 0, 0, 0⟩ = .fault ∧
    bson_project 5 [120, 0] doc_short ⟨0, 0, 0, 0, 0⟩ = .fault := by
  decide

/-- Claim C16, amended: on a buffer of less than `2 ^ 63` bytes in which the
length bytes of the document and every four-byte length read at a visited offset
have their top byte below `0x80`, each iteration of the loop that goes on
increases the offset by at least 1, and with fuel for `len - 4` iterations
`bson_project` does not run out of fuel: it returns status 0 or 1, or it reads
outside a buffer. -/
theorem bson_project_terminates (data proj : List Byte) (r : WT_ITEM) (len fuel : Nat)
    (hsz : data.length < 2 ^ 63) (hlen : add_le32 0 data = some len)
    (htop : TopByteOK (data.take 4))
    (hreads : ∀ o, Visits data proj r len o → o < len →
      ∀ d, length_field (data.drop o) = some d → TopByteOK d)
    (hfuel : len - 4 ≤ fuel) :
    (∀ o o2, Visits data proj r len o → o < len →
      bson_project_body data proj r o = some (.next o2) → o + 1 ≤ o2) ∧
    (bson_project fuel proj data r = .fault ∨
      ∃ s r2, bson_project fuel proj data r = .ret s r2 ∧ (s = 0 ∨ s = 1)) := by
  have hl31 : len < 2 ^ 31 := by
    have := add_le32_lt 0 len data (by omega) hlen htop
    omega
  constructor
  · intro o o2 hv hlt hb
    exact bson_project_body_next_gt data proj r o o2 hb (hreads o hv hlt) hsz (by omega)
  · have hnt := bson_project_loop_no_timeout data proj r len hsz hl31 hreads fuel 4
      Visits.start (by omega)
    have hp : bson_project fuel proj data r = bson_project_loop data proj r len fuel 4 := by
      simp [bson_project, hlen]
    cases hout : bson_project fuel proj data r with
    | fault => exact Or.inl rfl
    | timeout => rw [hp] at hout; exact absurd hout hnt
    | ret s r2 =>
      refine Or.inr ⟨s, r2, rfl, ?_⟩
      rcases bson_project_ret fuel proj data r s r2 hout with h1 | h1
      · exact Or.inr h1.1
      · exact Or.inl h1.1

theorem doc_s_lengths (o : Nat) (d : List Byte)
    (h : length_field (doc_s.drop o) = some d) : TopByteOK d := by
  by_cases ho : o < 18
  · have key : ∀ k, k < 18 → (length_field (doc_s.drop k) = none ∨
        length_field (doc_s.drop k) = some [6, 0, 0, 0]) := by decide
    rcases key o ho with k | k
    · rw [k] at h
      cases h
    · rw [k] at h
      cases h
      intro b hb
      simp at hb
      subst hb
      decide
  · have hnil : doc_s.drop o = [] := List.drop_eq_nil_of_le (by simp [doc_s]; omega)
    rw [hnil] at h
    simp [length_field] at h

/-- The document with the string field "s", target "y", fuel `18 - 4`. -/
theorem bson_project_terminates_witness :
    TopByteOK (doc_s.take 4) ∧
    ((∀ o o2, Visits doc_s [121, 0] ⟨0, 0, 0, 0, 0⟩ 18 o → o < 18 →
      bson_project_body doc_s [121, 0] ⟨0, 0, 0, 0, 0⟩ o = some (.next o2) → o + 1 ≤ o2) ∧
    (bson_project 14 [121, 0] doc_s ⟨0, 0, 0, 0, 0⟩ = .fault ∨
      ∃ s r2, bson_project 14 [121, 0] doc_s ⟨0, 0, 0, 0, 0⟩ = .ret s r2 ∧ (s = 0 ∨ s = 1))) :=
  ⟨by intro b hb; simp [doc_s] at hb; subst hb; decide,
   bson_project_terminates doc_s [121, 0] ⟨0, 0, 0, 0, 0⟩ 18 14 (by simp [doc_s]) (by decide)
     (by intro b hb; simp [doc_s] at hb; subst hb; decide)
     (fun o _ _ d h => doc_s_lengths o d h) (by decide)⟩

end Bson
